import Mathlib

/-!
Verification of the subtitle-enrichment pipeline (`enrich_srt.py`) and the
word-frequency model (`word_frequency.py`).

The Python source is shallowly embedded as executable Lean definitions:

* strings are Lean `String`s / `List Char`s (Python `str`, code-point based);
* JSON values (`json.load` / `json.loads` results) are an inductive `JValue`;
* floating-point divisions `cumulative / total_frequency` are modelled over
  `ℚ` (the claims settled here do not depend on rounding at bucket
  boundaries, which the spec explicitly declares an accepted edge case);
* fallible Python code (exceptions) is modelled with `Except Unit` /
  `Option`;
* the file system, the AI backend and the `pypinyin` annotator are external
  collaborators: a corpus directory becomes a list of per-file parse
  results, a backend call becomes a `RawResult`, and the phonetic annotator
  becomes an explicit function argument `String → String`.
-/

/-! ## Character and list-of-characters utilities -/

/-- The left-brace character (written via its code point). -/
def lbraceC : Char := Char.ofNat 123

/-- The right-brace character. -/
def rbraceC : Char := Char.ofNat 125

/-- The left-bracket character. -/
def lbrackC : Char := Char.ofNat 91

/-- The right-bracket character. -/
def rbrackC : Char := Char.ofNat 93

/-- The comma character. -/
def commaC : Char := Char.ofNat 44

/-- The colon character. -/
def colonC : Char := Char.ofNat 58

/-- The double-quote character. -/
def quoteC : Char := Char.ofNat 34

/-- The backslash character. -/
def bslashC : Char := Char.ofNat 92

/-- The minus character. -/
def minusC : Char := Char.ofNat 45

/-- The dot character. -/
def dotC : Char := Char.ofNat 46

/-- The backtick character. -/
def btickC : Char := Char.ofNat 96

/-- Whitespace for Python's regex `\s` and `str.strip()` (the ASCII part:
space, tab, newline, carriage return, vertical tab, form feed; the corpus
text never contains the exotic Unicode spaces). -/
def pyIsSpace (c : Char) : Bool :=
  c == ' ' || c == '\t' || c == '\n' || c == '\r' ||
  c == Char.ofNat 11 || c == Char.ofNat 12

/-- JSON whitespace as accepted between tokens by Python's `json.loads`. -/
def jsonWsB (c : Char) : Bool :=
  c == ' ' || c == '\t' || c == '\n' || c == '\r'

/-- Python `str.startswith`: `p` is an initial run of `l`. -/
def startsWithL : List Char → List Char → Bool
  | _, [] => true
  | [], _ :: _ => false
  | c :: cs, p :: ps => c == p && startsWithL cs ps

/-- Python `str.endswith`. -/
def endsWithL (l p : List Char) : Bool :=
  startsWithL l.reverse p.reverse

/-- Python `str.removeprefix`: drop `p` from the front when it is there. -/
def pyRemoveStartL (l p : List Char) : List Char :=
  if startsWithL l p then l.drop p.length else l

/-- Python `str.removesuffix`: drop `p` from the back when it is there. -/
def pyRemoveEndL (l p : List Char) : List Char :=
  if endsWithL l p then l.take (l.length - p.length) else l

/-- Python `str.strip()` on a character list. -/
def pyStripL (l : List Char) : List Char :=
  ((l.dropWhile pyIsSpace).reverse.dropWhile pyIsSpace).reverse

/-- Python `str.strip()`. -/
def pyStrip (s : String) : String :=
  String.mk (pyStripL s.data)

theorem dropWhile_idem (p : α → Bool) (l : List α) :
    (l.dropWhile p).dropWhile p = l.dropWhile p := by
  induction l with
  | nil => rfl
  | cons a t ih =>
    by_cases h : p a = true
    · simp [List.dropWhile_cons, h, ih]
    · simp [List.dropWhile_cons, h]

theorem dropWhile_head_false (p : α → Bool) (l : List α) (b : α) (r : List α)
    (h : l.dropWhile p = b :: r) : p b = false := by
  induction l with
  | nil => simp at h
  | cons a t ih =>
    by_cases ha : p a = true
    · simp [List.dropWhile_cons, ha] at h
      exact ih h
    · simp [List.dropWhile_cons, ha] at h
      rw [← h.1]
      simpa using ha

theorem dropWhile_cons_of_neg (p : α → Bool) (b : α) (r : List α)
    (h : p b = false) : (b :: r).dropWhile p = b :: r := by
  simp [List.dropWhile_cons, h]

/-- Stripping is idempotent: the result starts and ends with a
non-whitespace character (or is empty), so stripping again is a no-op. -/
theorem pyStripL_idem (l : List Char) : pyStripL (pyStripL l) = pyStripL l := by
  unfold pyStripL
  cases hm : l.dropWhile pyIsSpace with
  | nil => simp
  | cons a t =>
    have ha : pyIsSpace a = false := dropWhile_head_false _ _ _ _ hm
    -- the stripped list has head `a` (not whitespace), so the leading
    -- `dropWhile` of the second pass is the identity
    have hshape : ∃ t', ((a :: t).reverse.dropWhile pyIsSpace).reverse = a :: t' := by
      rw [List.reverse_cons, List.dropWhile_append]
      by_cases he : (t.reverse.dropWhile pyIsSpace).isEmpty = true
      · exact ⟨[], by simp [he, dropWhile_cons_of_neg _ _ _ ha]⟩
      · exact ⟨(t.reverse.dropWhile pyIsSpace).reverse, by simp [he]⟩
    obtain ⟨t', ht'⟩ := hshape
    rw [ht', dropWhile_cons_of_neg _ _ _ ha, ← ht']
    rw [List.reverse_reverse, dropWhile_idem]

/-- Pretty-named wrapper at the `String` level. -/
theorem pyStrip_idem (s : String) : pyStrip (pyStrip s) = pyStrip s := by
  unfold pyStrip
  exact congrArg String.mk (pyStripL_idem s.data)

/-! ## `word_frequency.py` : eligibility predicate -/

/-- The character class of the regex in `is_chinese_word`, exactly as
Python's `re` engine reads the pattern.  The pattern spells
supplementary-plane ranges with `\uXXXXX` escapes; `re` consumes exactly
four hex digits after `\u`, so each `\uXXXXX` fragment denotes the
code point `\uXXXX` followed by the literal digit that was meant to be the
fifth hex digit.  Concretely the class consists of the ranges
4E00-9FFF, 3400-4DBF, F900-FAFF, 3300-33FF, FE30-FE4F, the singletons
2000, 2A70, 2B74, 2B82 and the ASCII-digit-to-CJK ranges 30-2A6D,
30-2B73, 30-2B81, 30-2CEA (plus a literal `f`, already inside those). -/
def matchesChineseClass (c : Char) : Bool :=
  let n := c.toNat
  (0x4e00 ≤ n && n ≤ 0x9fff) ||
  (0x3400 ≤ n && n ≤ 0x4dbf) ||
  (n == 0x2000) ||
  (0x30 ≤ n && n ≤ 0x2a6d) ||
  (n == 0x66) ||
  (n == 0x2a70) ||
  (0x30 ≤ n && n ≤ 0x2b73) ||
  (n == 0x2b74) ||
  (0x30 ≤ n && n ≤ 0x2b81) ||
  (n == 0x2b82) ||
  (0x30 ≤ n && n ≤ 0x2cea) ||
  (0xf900 ≤ n && n ≤ 0xfaff) ||
  (0x3300 ≤ n && n ≤ 0x33ff) ||
  (0xfe30 ≤ n && n ≤ 0xfe4f)

/-- The predicate `word_frequency.is_chinese_word`.  `word.isdigit()` is modelled with
ASCII digits (the corpus tokens are Chinese text and ASCII, where Python's
`str.isdigit` coincides with the ASCII digit test). -/
def is_chinese_word (word : String) : Bool :=
  let has_chinese := word.data.any matchesChineseClass
  let is_numeric := !word.data.isEmpty && word.data.all Char.isDigit
  has_chinese && !is_numeric

/-! ## `word_frequency.py` : frequency table and score mapper -/

/-- The update `frequency_dict[word] = frequency_dict.get(word, 0) + 1` on an
association list that, like a Python dict, keeps first-insertion order. -/
def dictIncr : List (String × Nat) → String → List (String × Nat)
  | [], w => [(w, 1)]
  | (k, v) :: rest, w =>
    if k == w then (k, v + 1) :: rest else (k, v) :: dictIncr rest w

/-- The comparison used by `sorted(..., key=lambda x: x[1], reverse=True)`:
keep the pair with the larger count first. -/
def byCountDesc (p q : String × Nat) : Prop := q.2 ≤ p.2

instance : DecidableRel byCountDesc := fun p q => Nat.decLe q.2 p.2

instance : IsTotal (String × Nat) byCountDesc :=
  ⟨fun a b => (Nat.le_total b.2 a.2).imp (fun h => h) (fun h => h)⟩

instance : IsTrans (String × Nat) byCountDesc :=
  ⟨fun _ _ _ h1 h2 => Nat.le_trans h2 h1⟩

/-- The score assignment of `map_frequency_to_scores` for one value of
`ratio = cumulative / total_frequency`, with the breakpoints 0.60, 0.80,
0.90, 0.97 written as exact rationals. -/
def scoreOf (ratio : ℚ) : Nat :=
  if ratio ≤ 60 / 100 then 5
  else if ratio ≤ 80 / 100 then 4
  else if ratio ≤ 90 / 100 then 3
  else if ratio ≤ 97 / 100 then 2
  else 1

/-- The `for word, count in sorted_words` loop of
`map_frequency_to_scores`: walk the sorted list, accumulate `cumulative`,
and assign `scoreOf (cumulative / total)` to each word. -/
def assignScores (total : Nat) (cumulative : Nat) :
    List (String × Nat) → List (String × Nat)
  | [] => []
  | (word, count) :: rest =>
    (word, scoreOf ((cumulative + count : Nat) / (total : ℚ))) ::
      assignScores total (cumulative + count) rest

/-- The mapper `word_frequency.map_frequency_to_scores`.  Python's `sorted` is a
stable sort; `List.insertionSort` with the same key comparison is the same
stable sort.  The division is over `ℚ`. -/
def map_frequency_to_scores (frequency_dict : List (String × Nat)) :
    List (String × Nat) :=
  let sorted_words := List.insertionSort byCountDesc frequency_dict
  let total_frequency := (sorted_words.map Prod.snd).sum
  assignScores total_frequency 0 sorted_words

/-! ### Properties of the score mapper -/

theorem scoreOf_range (r : ℚ) : 1 ≤ scoreOf r ∧ scoreOf r ≤ 5 := by
  unfold scoreOf
  split_ifs <;> simp

/-- The score is antitone in the cumulative ratio. -/
theorem scoreOf_antitone {r1 r2 : ℚ} (h : r1 ≤ r2) : scoreOf r2 ≤ scoreOf r1 := by
  unfold scoreOf
  split_ifs <;> first | rfl | omega | linarith

/-- Dividing by the (non-negative) total is monotone. -/
theorem ratio_mono (a b t : Nat) (h : a ≤ b) :
    (a : ℚ) / (t : ℚ) ≤ (b : ℚ) / (t : ℚ) := by
  rcases Nat.eq_zero_or_pos t with h0 | h0
  · subst h0; simp
  · have ht : (0 : ℚ) < (t : ℚ) := by exact_mod_cast h0
    have hab : (a : ℚ) ≤ (b : ℚ) := by exact_mod_cast h
    gcongr

theorem assignScores_keys (t acc : Nat) (l : List (String × Nat)) :
    (assignScores t acc l).map Prod.fst = l.map Prod.fst := by
  induction l generalizing acc with
  | nil => rfl
  | cons p rest ih =>
    obtain ⟨w, c⟩ := p
    simp [assignScores, ih]

theorem assignScores_snd_range (t acc : Nat) (l : List (String × Nat)) :
    ∀ p ∈ assignScores t acc l, 1 ≤ p.2 ∧ p.2 ≤ 5 := by
  induction l generalizing acc with
  | nil => intro p hp; simp [assignScores] at hp
  | cons q rest ih =>
    obtain ⟨w, c⟩ := q
    intro p hp
    simp only [assignScores, List.mem_cons] at hp
    rcases hp with h | h
    · subst h; exact scoreOf_range _
    · exact ih _ p h

/-- Every score assigned after the walk has passed cumulative value `a` is
at most the score of ratio `a / t`: the cumulative sum only grows. -/
theorem assignScores_lookup_le (l : List (String × Nat)) :
    ∀ (a b t : Nat), a ≤ b → ∀ (w : String) (s : Nat),
      (assignScores t b l).lookup w = some s →
      s ≤ scoreOf ((a : ℚ) / (t : ℚ)) := by
  induction l with
  | nil => intro a b t _ w s h; simp [assignScores, List.lookup] at h
  | cons q rest ih =>
    obtain ⟨w0, c0⟩ := q
    intro a b t hab w s h
    simp only [assignScores, List.lookup] at h
    cases hw : w == w0 with
    | true =>
      rw [hw] at h
      simp only [] at h
      injection h with h
      subst h
      exact scoreOf_antitone (ratio_mono a (b + c0) t (le_trans hab (Nat.le_add_right _ _)))
    | false =>
      rw [hw] at h
      simp only [] at h
      exact ih a (b + c0) t (le_trans hab (Nat.le_add_right _ _)) w s h

/-- Recover membership from an association-list lookup. -/
theorem lookup_some_mem {l : List (String × β)} {w : String} {v : β}
    (h : l.lookup w = some v) : (w, v) ∈ l := by
  induction l with
  | nil => simp [List.lookup] at h
  | cons q rest ih =>
    obtain ⟨k, u⟩ := q
    simp only [List.lookup] at h
    cases hw : w == k with
    | true =>
      rw [hw] at h
      simp only [] at h
      injection h with h
      subst h
      rw [eq_of_beq hw]
      exact List.mem_cons_self _ _
    | false =>
      rw [hw] at h
      simp only [] at h
      exact List.mem_cons_of_mem _ (ih h)

/-- Core monotonicity: on a list sorted by descending count with distinct
keys, a strictly larger count receives a score at least as large. -/
theorem assignScores_sorted_mono :
    ∀ (l : List (String × Nat)) (t acc : Nat),
      List.Sorted byCountDesc l → (l.map Prod.fst).Nodup →
      ∀ (w1 : String) (c1 : Nat) (w2 : String) (c2 : Nat) (s1 s2 : Nat),
        (w1, c1) ∈ l → (w2, c2) ∈ l → c2 < c1 →
        (assignScores t acc l).lookup w1 = some s1 →
        (assignScores t acc l).lookup w2 = some s2 → s2 ≤ s1 := by
  intro l
  induction l with
  | nil =>
    intro t acc _ _ w1 c1 w2 c2 s1 s2 h1 _ _ _ _
    simp at h1
  | cons q rest ih =>
    obtain ⟨w0, c0⟩ := q
    intro t acc hsort hnd w1 c1 w2 c2 s1 s2 h1 h2 hlt hs1 hs2
    have hsort' : List.Sorted byCountDesc rest := (List.sorted_cons.mp hsort).2
    have hbound : ∀ b ∈ rest, byCountDesc (w0, c0) b := (List.sorted_cons.mp hsort).1
    simp only [List.map_cons, List.nodup_cons] at hnd
    obtain ⟨hkey, hnd'⟩ := hnd
    -- membership for a key distinct from the head key lands in the tail
    have mem_tail : ∀ (w : String) (c : Nat), (w, c) ∈ (w0, c0) :: rest →
        w ≠ w0 → (w, c) ∈ rest := by
      intro w c hm hne
      rcases List.mem_cons.mp hm with he | ht
      · exact absurd (congrArg Prod.fst he) hne
      · exact ht
    -- the head key's count is the head count
    have head_count : ∀ (c : Nat), (w0, c) ∈ (w0, c0) :: rest → c = c0 := by
      intro c hm
      rcases List.mem_cons.mp hm with he | ht
      · exact congrArg Prod.snd he
      · exact absurd (List.mem_map_of_mem Prod.fst ht) hkey
    simp only [assignScores, List.lookup] at hs1 hs2
    cases hb1 : w1 == w0 with
    | true =>
      have hw1 : w1 = w0 := eq_of_beq hb1
      rw [hb1] at hs1
      simp only [] at hs1
      injection hs1 with hs1
      cases hb2 : w2 == w0 with
      | true =>
        have hw2 : w2 = w0 := eq_of_beq hb2
        have hc1 : c1 = c0 := head_count c1 (hw1 ▸ h1)
        have hc2 : c2 = c0 := head_count c2 (hw2 ▸ h2)
        omega
      | false =>
        rw [hb2] at hs2
        simp only [] at hs2
        rw [← hs1]
        exact assignScores_lookup_le rest (acc + c0) (acc + c0) t le_rfl w2 s2 hs2
    | false =>
      have hw1 : w1 ≠ w0 := by
        intro he
        rw [he] at hb1
        simp at hb1
      rw [hb1] at hs1
      simp only [] at hs1
      cases hb2 : w2 == w0 with
      | true =>
        have hw2 : w2 = w0 := eq_of_beq hb2
        have hc2 : c2 = c0 := head_count c2 (hw2 ▸ h2)
        have h1' : (w1, c1) ∈ rest := mem_tail w1 c1 h1 hw1
        have : c1 ≤ c0 := hbound _ h1'
        omega
      | false =>
        have hw2 : w2 ≠ w0 := by
          intro he
          rw [he] at hb2
          simp at hb2
        rw [hb2] at hs2
        simp only [] at hs2
        exact ih t (acc + c0) hsort' hnd' w1 c1 w2 c2 s1 s2
          (mem_tail w1 c1 h1 hw1) (mem_tail w2 c2 h2 hw2) hlt hs1 hs2

/-- Claim C3 (code bug): evaluating `is_chinese_word` at the failing input.
The claim (and the function's own docstring) say a token with no
Chinese-script character is excluded, but the malformed `\uXXXXX` escapes
make the character class cover the ASCII letters, so `"abc"` is accepted;
`"123"` and `"你好3"` behave as documented. -/
theorem is_chinese_word_ascii_letters_match :
    is_chinese_word "abc" = true ∧
    is_chinese_word "123" = false ∧
    is_chinese_word "你好3" = true := by
  decide

/-- Claim C4: in the `ScoreTable` produced by `map_frequency_to_scores`, a
word with a strictly greater count never gets a strictly smaller score. -/
theorem map_frequency_to_scores_monotone
    (freq : List (String × Nat)) (hnd : (freq.map Prod.fst).Nodup)
    (w1 w2 : String) (c1 c2 s1 s2 : Nat)
    (h1 : freq.lookup w1 = some c1) (h2 : freq.lookup w2 = some c2)
    (hgt : c2 < c1)
    (hs1 : (map_frequency_to_scores freq).lookup w1 = some s1)
    (hs2 : (map_frequency_to_scores freq).lookup w2 = some s2) :
    s2 ≤ s1 := by
  have hperm : (List.insertionSort byCountDesc freq).Perm freq :=
    List.perm_insertionSort _ _
  have hsort : List.Sorted byCountDesc (List.insertionSort byCountDesc freq) :=
    List.sorted_insertionSort _ _
  have hnd' : ((List.insertionSort byCountDesc freq).map Prod.fst).Nodup :=
    ((hperm.map Prod.fst).nodup_iff).mpr hnd
  have hm1 : (w1, c1) ∈ List.insertionSort byCountDesc freq :=
    (hperm.mem_iff).mpr (lookup_some_mem h1)
  have hm2 : (w2, c2) ∈ List.insertionSort byCountDesc freq :=
    (hperm.mem_iff).mpr (lookup_some_mem h2)
  simp only [map_frequency_to_scores] at hs1 hs2
  exact assignScores_sorted_mono (List.insertionSort byCountDesc freq)
    (((List.insertionSort byCountDesc freq).map Prod.snd).sum) 0
    hsort hnd' w1 c1 w2 c2 s1 s2 hm1 hm2 hgt hs1 hs2

/-- Witness for C4 at the table (a ↦ 3, b ↦ 1): a gets score 4, b score 1. -/
theorem map_frequency_to_scores_monotone_witness :
    ([("a", 3), ("b", 1)].map Prod.fst).Nodup ∧
    [("a", 3), ("b", 1)].lookup "a" = some 3 ∧
    [("a", 3), ("b", 1)].lookup "b" = some 1 ∧
    (1 : Nat) < 3 ∧
    (map_frequency_to_scores [("a", 3), ("b", 1)]).lookup "a" = some 4 ∧
    (map_frequency_to_scores [("a", 3), ("b", 1)]).lookup "b" = some 1 ∧
    (1 : Nat) ≤ 4 := by
  have e1 : (map_frequency_to_scores [("a", 3), ("b", 1)]).lookup "a" = some 4 := by
    norm_num [map_frequency_to_scores, assignScores, scoreOf, List.insertionSort,
      List.orderedInsert, byCountDesc, List.lookup]
  have e2 : (map_frequency_to_scores [("a", 3), ("b", 1)]).lookup "b" = some 1 := by
    norm_num [map_frequency_to_scores, assignScores, scoreOf, List.insertionSort,
      List.orderedInsert, byCountDesc, List.lookup]
    decide
  exact ⟨by decide, by decide, by decide, by decide, e1, e2,
    map_frequency_to_scores_monotone [("a", 3), ("b", 1)] (by decide)
      "a" "b" 3 1 4 1 (by decide) (by decide) (by decide) e1 e2⟩

/-- Claim C8: `map_frequency_to_scores` on the empty table is the empty
table — the `for` loop body (where the division lives) never runs. -/
theorem map_frequency_to_scores_empty : map_frequency_to_scores [] = [] := rfl

/-- Claim C9: when the total count is positive, every word of the input
table receives a score, and every score is one of 1..5.  (The key-set
equality holds as a permutation of the key lists.) -/
theorem map_frequency_to_scores_scores_all_words
    (freq : List (String × Nat)) (_hpos : 0 < (freq.map Prod.snd).sum) :
    ((map_frequency_to_scores freq).map Prod.fst).Perm (freq.map Prod.fst) ∧
    ∀ p ∈ map_frequency_to_scores freq, p.2 ∈ ({1, 2, 3, 4, 5} : Finset ℕ) := by
  constructor
  · simp only [map_frequency_to_scores]
    rw [assignScores_keys]
    exact (List.perm_insertionSort byCountDesc freq).map Prod.fst
  · intro p hp
    simp only [map_frequency_to_scores] at hp
    have hr := assignScores_snd_range _ _ _ p hp
    simp only [Finset.mem_insert, Finset.mem_singleton]
    omega

/-- Witness for C9 at the table (你 ↦ 2, 好 ↦ 1). -/
theorem map_frequency_to_scores_scores_all_words_witness :
    0 < ([("你", 2), ("好", 1)].map Prod.snd).sum ∧
    (((map_frequency_to_scores [("你", 2), ("好", 1)]).map Prod.fst).Perm
        ([("你", 2), ("好", 1)].map Prod.fst) ∧
      ∀ p ∈ map_frequency_to_scores [("你", 2), ("好", 1)],
        p.2 ∈ ({1, 2, 3, 4, 5} : Finset ℕ)) :=
  ⟨by decide, map_frequency_to_scores_scores_all_words _ (by decide)⟩

/-! ## JSON values and `json.loads`

`JValue` is the result type of Python's `json.load`/`json.loads`.
Numbers are carried as rationals (Python distinguishes `int`/`float`;
no claim settled here inspects a numeric value).  Objects keep the keys
in insertion order with duplicates collapsed last-value-wins, exactly as
Python's `dict`-building decoder does. -/

inductive JValue where
  | jnull : JValue
  | jbool : Bool → JValue
  | jnum : ℚ → JValue
  | jstr : String → JValue
  | jarr : List JValue → JValue
  | jobj : List (String × JValue) → JValue

/-- Python truthiness of a decoded JSON value. -/
def truthy : JValue → Bool
  | .jnull => false
  | .jbool b => b
  | .jnum q => decide (q ≠ 0)
  | .jstr s => !s.isEmpty
  | .jarr l => !l.isEmpty
  | .jobj l => !l.isEmpty

/-- The test `isinstance(v, list)`. -/
def isJList : JValue → Bool
  | .jarr _ => true
  | _ => false

/-- Insert into a Python dict under construction: an existing key keeps
its position and takes the new value, a new key is appended. -/
def objUpsert : List (String × JValue) → String → JValue → List (String × JValue)
  | [], k, v => [(k, v)]
  | (k0, v0) :: rest, k, v =>
    if k0 == k then (k0, v) :: rest else (k0, v0) :: objUpsert rest k v

/-- Membership in the ASCII hex digits. -/
def isHexD (c : Char) : Bool :=
  c.isDigit || (97 ≤ c.toNat && c.toNat ≤ 102) || (65 ≤ c.toNat && c.toNat ≤ 70)

/-- Value of a hex digit. -/
def hexDigitToNat (c : Char) : Nat :=
  if c.isDigit then c.toNat - 48
  else if c.toNat ≥ 97 then c.toNat - 87
  else c.toNat - 55

/-- The simple JSON escapes. -/
def escMap (d : Char) : Option Char :=
  if d == quoteC then some quoteC
  else if d == bslashC then some bslashC
  else if d == Char.ofNat 47 then some (Char.ofNat 47)
  else if d == 'b' then some (Char.ofNat 8)
  else if d == 'f' then some (Char.ofNat 12)
  else if d == 'n' then some '\n'
  else if d == 'r' then some '\r'
  else if d == 't' then some '\t'
  else none

/-- String-body scanner: consumes characters of a JSON string after the
opening quote, handling backslash escapes (including `\uXXXX`), up to and
including the closing quote.  Returns the decoded characters and the rest
of the input.  Raw control characters are rejected (strict mode). -/
def parseStrAux : List Char → Option (List Char × List Char)
  | [] => none
  | c :: rest =>
    if c == quoteC then some ([], rest)
    else if c == bslashC then
      match rest with
      | [] => none
      | d :: rest2 =>
        if d == Char.ofNat 117 then
          match rest2 with
          | h1 :: h2 :: h3 :: h4 :: rest3 =>
            match isHexD h1 && isHexD h2 && isHexD h3 && isHexD h4 with
            | false => none
            | true =>
              match parseStrAux rest3 with
              | some (s, r) =>
                some (Char.ofNat
                  (4096 * (hexDigitToNat h1) + 256 * (hexDigitToNat h2) +
                    16 * (hexDigitToNat h3) + hexDigitToNat h4) :: s, r)
              | none => none
          | _ => none
        else
          match escMap d with
          | some e =>
            match parseStrAux rest2 with
            | some (s, r) => some (e :: s, r)
            | none => none
          | none => none
    else if c.toNat < 32 then none
    else
      match parseStrAux rest with
      | some (s, r) => some (c :: s, r)
      | none => none

/-- Digits to a natural number. -/
def digitsVal (l : List Char) : Nat :=
  l.foldl (fun n c => n * 10 + (c.toNat - 48)) 0

/-- Optional fraction part: `.digits`. -/
def parseFracPart : List Char → Option (List Char × List Char)
  | [] => some ([], [])
  | c :: r =>
    if c == dotC then
      let ds := r.takeWhile Char.isDigit
      if ds.isEmpty then none else some (ds, r.dropWhile Char.isDigit)
    else some ([], c :: r)

/-- Optional exponent part: `e`/`E`, optional sign, digits. -/
def parseExpPart : List Char → Option (Int × List Char)
  | [] => some (0, [])
  | c :: r =>
    if c == Char.ofNat 101 || c == Char.ofNat 69 then
      let signAndRest : Int × List Char :=
        match r with
        | d :: r2 =>
          if d == Char.ofNat 43 then (1, r2)
          else if d == minusC then (-1, r2)
          else (1, r)
        | [] => (1, [])
      let ds := signAndRest.2.takeWhile Char.isDigit
      if ds.isEmpty then none
      else some (signAndRest.1 * (digitsVal ds : Int), signAndRest.2.dropWhile Char.isDigit)
    else some (0, c :: r)

/-- JSON number grammar (`int frac exp`, leading zeros rejected), value
collected as an exact rational. -/
def parseNumber (l : List Char) : Option (ℚ × List Char) := do
  let (neg, l1) : Bool × List Char :=
    match l with
    | c :: r => if c == minusC then (true, r) else (false, l)
    | [] => (false, [])
  let (ip, r1) ← (match l1 with
    | c :: r =>
      if c == Char.ofNat 48 then some ([c], r)
      else if c.isDigit then some (l1.takeWhile Char.isDigit, l1.dropWhile Char.isDigit)
      else none
    | [] => none : Option (List Char × List Char))
  let (fp, r2) ← parseFracPart r1
  let (ex, r3) ← parseExpPart r2
  let mant : ℚ := (digitsVal (ip ++ fp) : ℚ) / (10 : ℚ) ^ fp.length
  let v : ℚ := mant * (10 : ℚ) ^ ex
  some (if neg then -v else v, r3)

/-- The keyword `true` as characters. -/
def trueL : List Char := "true".data

/-- The keyword `false` as characters. -/
def falseL : List Char := "false".data

/-- The keyword `null` as characters. -/
def nullL : List Char := "null".data

mutual

/-- Recursive-descent JSON value parser, fuelled (the fuel only bounds
nesting/step depth; `jsonLoadsL` supplies more than enough). -/
def parseValue : Nat → List Char → Option (JValue × List Char)
  | 0, _ => none
  | fuel + 1, l =>
    match l with
    | [] => none
    | c :: rest =>
      if c == lbraceC then
        match rest.dropWhile jsonWsB with
        | d :: r2 =>
          if d == rbraceC then some (.jobj [], r2)
          else
            match parseMembers fuel (rest.dropWhile jsonWsB) with
            | some (ms, r3) =>
              some (.jobj (ms.foldl (fun acc kv => objUpsert acc kv.1 kv.2) []), r3)
            | none => none
        | [] => none
      else if c == lbrackC then
        match rest.dropWhile jsonWsB with
        | d :: r2 =>
          if d == rbrackC then some (.jarr [], r2)
          else
            match parseItems fuel (rest.dropWhile jsonWsB) with
            | some (vs, r3) => some (.jarr vs, r3)
            | none => none
        | [] => none
      else if c == quoteC then
        match parseStrAux rest with
        | some (s, r2) => some (.jstr (String.mk s), r2)
        | none => none
      else if startsWithL l trueL then some (.jbool true, l.drop 4)
      else if startsWithL l falseL then some (.jbool false, l.drop 5)
      else if startsWithL l nullL then some (.jnull, l.drop 4)
      else
        match parseNumber l with
        | some (q, r2) => some (.jnum q, r2)
        | none => none

/-- Comma-separated values up to the closing bracket. -/
def parseItems : Nat → List Char → Option (List JValue × List Char)
  | 0, _ => none
  | fuel + 1, l =>
    match parseValue fuel l with
    | some (v, r) =>
      match r.dropWhile jsonWsB with
      | c :: r2 =>
        if c == commaC then
          match parseItems fuel (r2.dropWhile jsonWsB) with
          | some (vs, r3) => some (v :: vs, r3)
          | none => none
        else if c == rbrackC then some ([v], r2)
        else none
      | [] => none
    | none => none

/-- Comma-separated `"key": value` members up to the closing brace. -/
def parseMembers : Nat → List Char → Option (List (String × JValue) × List Char)
  | 0, _ => none
  | fuel + 1, l =>
    match l with
    | c :: rest =>
      if c == quoteC then
        match parseStrAux rest with
        | some (k, r1) =>
          match r1.dropWhile jsonWsB with
          | d :: r2 =>
            if d == colonC then
              match parseValue fuel (r2.dropWhile jsonWsB) with
              | some (v, r3) =>
                match r3.dropWhile jsonWsB with
                | e :: r4 =>
                  if e == commaC then
                    match parseMembers fuel (r4.dropWhile jsonWsB) with
                    | some (ms, r5) => some ((String.mk k, v) :: ms, r5)
                    | none => none
                  else if e == rbraceC then some ([(String.mk k, v)], r4)
                  else none
                | [] => none
              | none => none
            else none
          | [] => none
        | none => none
      else none
    | [] => none

end

/-- Python `json.loads` on a character list: skip leading whitespace, parse one
value, require that only whitespace remains. -/
def jsonLoadsL (l : List Char) : Option JValue :=
  match parseValue (2 * l.length + 2) (l.dropWhile jsonWsB) with
  | some (v, r) => if (r.dropWhile jsonWsB).isEmpty then some v else none
  | none => none

/-- Python `json.loads`. -/
def json_loads (s : String) : Option JValue :=
  jsonLoadsL s.data

/-! ## `word_frequency.build_word_frequency_corpus`

The directory of enriched artifacts is the input: one entry per
`*.enriched.json` file, `none` when opening/`json.load` raises (unreadable
or malformed file), `some data` for the parsed document.  The whole scan
runs inside a single `try`/`except`; the `Except Unit` computation below
is that `try` body, and `build_word_frequency_corpus` is the function
including the `except` handler, which returns the empty dict. -/

/-- Python `subtitle.get(key)`: `None` default; raises (`AttributeError`) when the
receiver is not a dict. -/
def pyGetOpt (v : JValue) (key : String) : Except Unit JValue :=
  match v with
  | .jobj l => .ok ((l.lookup key).getD .jnull)
  | _ => .error ()

/-- Loop body over one `segment` entry of a subtitle's `segmented` list:
count the word when it is truthy and eligible.  A truthy non-string word
raises (`re` rejects non-string arguments). -/
def processSegment (d : List (String × Nat)) (segment : JValue) :
    Except Unit (List (String × Nat)) := do
  let w ← pyGetOpt segment "word"
  if truthy w then
    match w with
    | .jstr s => if is_chinese_word s then .ok (dictIncr d s) else .ok d
    | _ => .error ()
  else .ok d

/-- Loop body over one subtitle entry of a parsed document. -/
def processSubtitle (d : List (String × Nat)) (subtitle : JValue) :
    Except Unit (List (String × Nat)) := do
  let seg ← pyGetOpt subtitle "segmented"
  if truthy seg && isJList seg then
    match seg with
    | .jarr segments => segments.foldlM processSegment d
    | _ => .ok d
  else .ok d

/-- Per-file processing: only a parsed list contributes. -/
def processData (d : List (String × Nat)) (data : JValue) :
    Except Unit (List (String × Nat)) :=
  match data with
  | .jarr subs => subs.foldlM processSubtitle d
  | _ => .ok d

/-- The `for i, file_path in enumerate(files)` loop: reading a file either
yields parsed data or raises (modelled by `none`). -/
def processFiles (d : List (String × Nat)) :
    List (Option JValue) → Except Unit (List (String × Nat))
  | [] => .ok d
  | none :: _ => .error ()
  | some data :: rest =>
    match processData d data with
    | .ok d2 => processFiles d2 rest
    | .error e => .error e

/-- The builder `word_frequency.build_word_frequency_corpus`: the whole scan is inside
one `try`; any failure makes the function return the empty dict. -/
def build_word_frequency_corpus (files : List (Option JValue)) :
    List (String × Nat) :=
  match processFiles [] files with
  | .ok d => d
  | .error _ => []

/-- A well-formed enriched artifact containing the single word 你好. -/
def goodArtifact : JValue :=
  .jarr [.jobj [("segmented", .jarr [.jobj [("word", .jstr "你好")]])]]

/-- Claim C1 counterexample: with one readable artifact holding 你好 and
one unreadable artifact, the builder returns the empty table — the count
from the readable artifact is not retained (the claim says unreadable
artifacts are skipped and the rest still aggregated); alone, the same
readable artifact does contribute its count. -/
theorem build_word_frequency_corpus_not_skipping :
    build_word_frequency_corpus [some goodArtifact, none] = [] ∧
    build_word_frequency_corpus [some goodArtifact] = [("你好", 1)] := by
  constructor
  · rfl
  · rfl

/-- Claim C1 amended: if any artifact of the corpus directory is
unreadable or malformed, `build_word_frequency_corpus` returns the empty
frequency table (the `except` handler discards all counts). -/
theorem build_word_frequency_corpus_empty_of_bad_artifact
    (files : List (Option JValue)) (h : none ∈ files) :
    build_word_frequency_corpus files = [] := by
  unfold build_word_frequency_corpus
  suffices hs : ∀ d, processFiles d files = .error () by rw [hs []]
  induction files with
  | nil => simp at h
  | cons f rest ih =>
    intro d
    match f with
    | none => rfl
    | some data =>
      have h' : none ∈ rest := by
        rcases List.mem_cons.mp h with he | ht
        · exact absurd he (by simp)
        · exact ht
      unfold processFiles
      match processData d data with
      | .ok d2 => exact ih h' d2
      | .error e => rfl

/-- Witness for the amended C1: a directory whose only artifact is
unreadable yields the empty table. -/
theorem build_word_frequency_corpus_empty_of_bad_artifact_witness :
    build_word_frequency_corpus [none] = [] :=
  build_word_frequency_corpus_empty_of_bad_artifact [none] (List.Mem.head _)

/-! ## `enrich_srt.get_ai_analysis` : response sanitizing and decoding -/

/-- Is this a closing bracket or brace (the `(\]|\})` group)? -/
def isCloseBr (c : Char) : Bool :=
  c == rbrackC || c == rbraceC

/-- One left-to-right pass of `re.sub(r',\s*(\]|\})', r'\1', content)`.

`pending` buffers (in reverse) a comma plus the whitespace seen after it
while the scanner looks for the closing bracket of a candidate match:

* a whitespace character extends the buffer;
* a closing bracket completes the match — the buffered comma and
  whitespace are dropped, the bracket is kept, scanning resumes after it
  (matches never overlap: the interior of a match contains no comma);
* a comma flushes the buffer and starts a new candidate;
* anything else flushes the buffer, the candidate failed.

A comma with no pending candidate starts one; other characters are
copied. -/
def rtcGo : (pending : List Char) → List Char → List Char
  | pending, [] => pending.reverse
  | pending, c :: rest =>
    match pending with
    | [] =>
      if c == commaC then rtcGo [c] rest
      else c :: rtcGo [] rest
    | _ :: _ =>
      if pyIsSpace c then rtcGo (c :: pending) rest
      else if isCloseBr c then c :: rtcGo [] rest
      else if c == commaC then pending.reverse ++ rtcGo [c] rest
      else pending.reverse ++ (c :: rtcGo [] rest)

/-- The global trailing-comma repair
`re.sub(r',\s*(\]|\})', r'\1', content)`. -/
def rtcL (l : List Char) : List Char :=
  rtcGo [] l

/-- The fence marker `三backticks + json` as used by
`content.startswith("```json")`. -/
def fenceJsonL : List Char := "```json".data

/-- Four backticks, the second fence marker the code tests for. -/
def fence4L : List Char := "````".data

/-- Three backticks, the suffix removed by `removesuffix`. -/
def fence3L : List Char := "```".data

/-- Lines 294-297 of `get_ai_analysis`: strip a leading
```` ```json ```` marker, or a leading ```` ```` ```` (four-backtick)
marker, together with a trailing ```` ``` ````, then `strip()`.
Any other text — including a bare three-backtick fence — is untouched. -/
def stripFence (cs : List Char) : List Char :=
  if startsWithL cs fenceJsonL then
    pyStripL (pyRemoveEndL (pyRemoveStartL cs fenceJsonL) fence3L)
  else if startsWithL cs fence4L then
    pyStripL (pyRemoveEndL (pyRemoveStartL cs fence4L) fence3L)
  else cs

/-- The text-level phase of the response sanitizer (fence stripping
followed by the trailing-comma repair), lines 294-300. -/
def sanitize_text (content : String) : String :=
  String.mk (rtcL (stripFence content.data))

/-- The zero-value analysis record
`{"translation": "", "words": [], "explanation": ""}`. -/
def zeroRecord : JValue :=
  .jobj [("translation", .jstr ""), ("words", .jarr []), ("explanation", .jstr "")]

/-- Lines 292-309 of `get_ai_analysis`: clean the text, then
`json.loads` it, returning the zero record on `JSONDecodeError`.
The decoded value is returned as-is — there is no shape check. -/
def sanitize_content (content : String) : JValue :=
  (json_loads (sanitize_text content)).getD zeroRecord

/-- The outcome of the bounded backend call (`call_api` raced against the
timeout): trimmed response text, or a timeout, or any other exception. -/
inductive RawResult where
  | ok : String → RawResult
  | timeout : RawResult
  | transport_error : RawResult

/-- The wrapper `enrich_srt.get_ai_analysis` as a function of the backend outcome:
timeouts and transport errors yield the zero record; a successful call's
text goes through the sanitizer. -/
def get_ai_analysis : RawResult → JValue
  | .timeout => zeroRecord
  | .transport_error => zeroRecord
  | .ok content => sanitize_content content

/-! ### Fence-stripping lemmas (C6) -/

theorem startsWithL_append_self (p r : List Char) : startsWithL (p ++ r) p = true := by
  induction p with
  | nil =>
    rw [List.nil_append]
    cases r <;> rfl
  | cons c cs ih => simp [startsWithL, ih]

theorem pyRemoveStartL_append (p r : List Char) : pyRemoveStartL (p ++ r) p = r := by
  unfold pyRemoveStartL
  rw [startsWithL_append_self]
  simp [List.drop_left]

theorem endsWithL_append_self (l p : List Char) : endsWithL (l ++ p) p = true := by
  unfold endsWithL
  rw [List.reverse_append]
  exact startsWithL_append_self _ _

theorem pyRemoveEndL_append (l p : List Char) : pyRemoveEndL (l ++ p) p = l := by
  unfold pyRemoveEndL
  rw [endsWithL_append_self]
  simp only [if_true, List.length_append, Nat.add_sub_cancel]
  exact List.take_left _ _

/-- Claim C2 counterexample: the raw text `"\x7b\x7d"` (an empty JSON
object) decodes successfully to a value that lacks the three contracted
fields, and the sanitizer returns that value unchanged — not the
zero-value record the claim requires. -/
theorem sanitize_content_no_shape_check :
    sanitize_content "\x7b\x7d" = .jobj [] ∧
    (JValue.jobj [] ≠ zeroRecord) := by
  constructor
  · rfl
  · intro h
    simp [zeroRecord] at h

/-- Claim C2 amended: on decode failure the sanitizer returns exactly the
zero-value record and no decode error propagates; a successfully decoded
value, however, is returned as-is even when it lacks the three-field
shape. -/
theorem sanitize_content_zero_on_decode_failure
    (content : String) (h : json_loads (sanitize_text content) = none) :
    sanitize_content content = zeroRecord := by
  unfold sanitize_content
  rw [h]
  rfl

/-- Witness for the amended C2: text that is not JSON at all. -/
theorem sanitize_content_zero_on_decode_failure_witness :
    sanitize_content "not json at all" = zeroRecord :=
  sanitize_content_zero_on_decode_failure "not json at all" rfl

/-- Claim C6 counterexample: a valid three-field object wrapped in a bare
three-backtick fence (no language tag) is not unwrapped — the fence
survives, decoding fails, and the sanitizer yields the zero record,
whereas the same text without the fence decodes to the object. -/
theorem sanitize_content_bare_fence_not_stripped :
    sanitize_content "```\n\x7b\"translation\": \"a\", \"words\": [], \"explanation\": \"b\"\x7d\n```"
      = zeroRecord ∧
    sanitize_content "\x7b\"translation\": \"a\", \"words\": [], \"explanation\": \"b\"\x7d"
      = .jobj [("translation", .jstr "a"), ("words", .jarr []), ("explanation", .jstr "b")] ∧
    zeroRecord ≠ .jobj [("translation", .jstr "a"), ("words", .jarr []), ("explanation", .jstr "b")] := by
  refine ⟨rfl, rfl, ?_⟩
  intro h
  simp [zeroRecord] at h

/-- Claim C6 amended: the sanitizer strips an opening fence only when it
is the tagged marker ```` ```json ```` or four backticks ```` ```` ````;
in those two cases the fence and a trailing ```` ``` ```` are removed and
the inner text is stripped before comma repair and decoding. -/
theorem sanitize_content_strips_tagged_fence (body : String) :
    sanitize_content ("```json" ++ body ++ "```") =
      (json_loads (String.mk (rtcL (pyStripL body.data)))).getD zeroRecord ∧
    sanitize_content ("````" ++ body ++ "```") =
      (json_loads (String.mk (rtcL (pyStripL body.data)))).getD zeroRecord := by
  constructor
  · unfold sanitize_content sanitize_text stripFence
    have hd : ("```json" ++ body ++ "```" : String).data =
        fenceJsonL ++ (body.data ++ fence3L) := by
      simp [fenceJsonL, fence3L, String.data_append]
    rw [hd, startsWithL_append_self]
    simp only [if_true]
    rw [pyRemoveStartL_append, pyRemoveEndL_append]
  · unfold sanitize_content sanitize_text stripFence
    have hd : ("````" ++ body ++ "```" : String).data =
        fence4L ++ (body.data ++ fence3L) := by
      simp [fence4L, fence3L, String.data_append]
    rw [hd]
    have hne : startsWithL (fence4L ++ (body.data ++ fence3L)) fenceJsonL = false := rfl
    rw [hne]
    simp only [Bool.false_eq_true, if_false]
    rw [startsWithL_append_self]
    simp only [if_true]
    rw [pyRemoveStartL_append, pyRemoveEndL_append]

/-- Witness for the amended C6 at the body consisting of an empty object. -/
theorem sanitize_content_strips_tagged_fence_witness :
    sanitize_content ("```json" ++ "\x7b\x7d" ++ "```") =
      (json_loads (String.mk (rtcL (pyStripL "\x7b\x7d".data)))).getD zeroRecord ∧
    sanitize_content ("````" ++ "\x7b\x7d" ++ "```") =
      (json_loads (String.mk (rtcL (pyStripL "\x7b\x7d".data)))).getD zeroRecord :=
  sanitize_content_strips_tagged_fence "\x7b\x7d"

/-! ## `enrich_srt.enrich_subtitles` -/

/-- One parsed subtitle cue (`srt.parse` output): start/end offsets in
seconds and the raw text block. -/
structure Cue where
  start : ℚ
  end_ : ℚ
  content : String

/-- One `{"word": ..., "pinyin": ...}` entry of the `segmented` field. -/
structure WordPinyin where
  word : String
  pinyin : String
deriving DecidableEq

/-- One element of the persisted enriched document, with the fields in
the order the loop builds them. -/
structure EnrichedLine where
  start : ℚ
  end_ : ℚ
  text : String
  segmented : List WordPinyin
  translation : JValue
  explanation : JValue
  word_meanings : JValue

/-- Python `v.get(key, dflt)`: raises (`AttributeError`) when the receiver is
not a dict. -/
def pyGetD (v : JValue) (key : String) (dflt : JValue) : Except Unit JValue :=
  match v with
  | .jobj l => .ok ((l.lookup key).getD dflt)
  | _ => .error ()

/-- Python `for entry in v`: lists iterate elements, strings iterate
single-character strings, dicts iterate keys, anything else raises. -/
def pyIter : JValue → Except Unit (List JValue)
  | .jarr l => .ok l
  | .jstr s => .ok (s.data.map (fun c => .jstr (String.mk [c])))
  | .jobj l => .ok (l.map (fun p => .jstr p.1))
  | _ => .error ()

/-- The `for entry in ai_data.get("words", [])` loop: each entry's
`word` (default `""`) must be a string (else `get_pinyin` raises), and is
paired with its transcription from the external annotator `pf`. -/
def buildWordData (pf : String → String) :
    List JValue → Except Unit (List WordPinyin)
  | [] => .ok []
  | entry :: rest => do
    let w ← pyGetD entry "word" (.jstr "")
    match w with
    | .jstr s =>
      let tail ← buildWordData pf rest
      .ok (⟨s, pf s⟩ :: tail)
    | _ => .error ()

/-- The analysis-dependent parts of one output entry: the segmented word
data and the three `ai_data.get(...)` fields. -/
def analysisParts (pf : String → String) (ai_data : JValue) :
    Except Unit (List WordPinyin × JValue × JValue × JValue) := do
  let wordsVal ← pyGetD ai_data "words" (.jarr [])
  let entries ← pyIter wordsVal
  let word_data ← buildWordData pf entries
  let translation ← pyGetD ai_data "translation" (.jstr "")
  let explanation ← pyGetD ai_data "explanation" (.jstr "")
  let word_meanings ← pyGetD ai_data "words" (.jarr [])
  .ok (word_data, translation, explanation, word_meanings)

/-- The body of the `for idx, sub in enumerate(subs[:limit], 1)` loop of
`enrich_subtitles` for one cue, given the backend outcome `r` for that
cue's analysis call: `line = sub.content.strip()`, then the analysis
record is assembled into the output entry. -/
def enrichLine (pf : String → String) (sub : Cue) (r : RawResult) :
    Except Unit EnrichedLine :=
  match analysisParts pf (get_ai_analysis r) with
  | .error e => .error e
  | .ok (word_data, translation, explanation, word_meanings) =>
    .ok { start := sub.start, end_ := sub.end_, text := pyStrip sub.content,
          segmented := word_data, translation := translation,
          explanation := explanation, word_meanings := word_meanings }

/-- The orchestrator `enrich_srt.enrich_subtitles` over the parsed cue list, with the
backend outcome of each cue's analysis call supplied alongside it
(`MAX_LINES = None`, so every cue is processed; an exception in the loop
propagates and aborts the run). -/
def enrich_subtitles (pf : String → String) :
    List (Cue × RawResult) → Except Unit (List EnrichedLine)
  | [] => .ok []
  | (sub, r) :: rest =>
    match enrichLine pf sub r with
    | .error e => .error e
    | .ok el =>
      match enrich_subtitles pf rest with
      | .error e => .error e
      | .ok els => .ok (el :: els)

/-- Claim C5 counterexample: on a timeout, a cue whose content carries
surrounding whitespace gets `line = sub.content.strip()` as its output
text — not the cue's own text unchanged. -/
theorem enrichLine_timeout_strips_text :
    (enrichLine (fun _ => "") ⟨0, 1, " 你好 "⟩ .timeout).map EnrichedLine.text
      = .ok "你好" ∧
    ("你好" : String) ≠ " 你好 " :=
  ⟨rfl, by decide⟩

/-- Claim C5 amended: on a backend timeout the output entry has empty
translation and explanation, an empty `segmented` list, the cue's start
and end unchanged, and the cue's content with surrounding whitespace
stripped (the stripping applies to every cue, timeout or not). -/
theorem enrichLine_timeout_zero_record (pf : String → String) (sub : Cue) :
    enrichLine pf sub .timeout =
      .ok { start := sub.start, end_ := sub.end_, text := pyStrip sub.content,
            segmented := [], translation := .jstr "", explanation := .jstr "",
            word_meanings := .jarr [] } := rfl

/-- Witness for the amended C5 at a concrete cue. -/
theorem enrichLine_timeout_zero_record_witness :
    enrichLine (fun _ => "") ⟨0, 1, "你好"⟩ .timeout =
      .ok { start := 0, end_ := 1, text := pyStrip "你好",
            segmented := [], translation := .jstr "", explanation := .jstr "",
            word_meanings := .jarr [] } :=
  enrichLine_timeout_zero_record (fun _ => "") ⟨0, 1, "你好"⟩

/-- Whenever the loop body succeeds, the output text is the stripped cue
content. -/
theorem enrichLine_text_eq (pf : String → String) (sub : Cue) (r : RawResult)
    (el : EnrichedLine) (h : enrichLine pf sub r = .ok el) :
    el.text = pyStrip sub.content := by
  unfold enrichLine at h
  cases hap : analysisParts pf (get_ai_analysis r) with
  | error e => rw [hap] at h; exact absurd h (by simp)
  | ok q =>
    obtain ⟨word_data, translation, explanation, word_meanings⟩ := q
    rw [hap] at h
    injection h with h
    rw [← h]

/-- Claim C10: every entry the orchestrator produces has as its text the
corresponding cue's content stripped of surrounding whitespace; in
particular the text is invariant under further stripping. -/
theorem enrich_subtitles_text_stripped
    (pf : String → String) (pairs : List (Cue × RawResult))
    (out : List EnrichedLine) (h : enrich_subtitles pf pairs = .ok out)
    (i : Nat) (hi : i < out.length) (hp : i < pairs.length) :
    (out.get ⟨i, hi⟩).text = pyStrip ((pairs.get ⟨i, hp⟩).1.content) ∧
    pyStrip ((out.get ⟨i, hi⟩).text) = (out.get ⟨i, hi⟩).text := by
  induction pairs generalizing out i with
  | nil =>
    unfold enrich_subtitles at h
    injection h with h
    subst h
    simp at hi
  | cons p rest ih =>
    obtain ⟨sub, r⟩ := p
    unfold enrich_subtitles at h
    cases he : enrichLine pf sub r with
    | error e => rw [he] at h; exact absurd h (by simp)
    | ok el =>
      rw [he] at h
      cases hr : enrich_subtitles pf rest with
      | error e => rw [hr] at h; exact absurd h (by simp)
      | ok els =>
        rw [hr] at h
        injection h with h
        subst h
        cases i with
        | zero =>
          have htext : el.text = pyStrip sub.content := enrichLine_text_eq pf sub r el he
          constructor
          · show el.text = pyStrip sub.content
            exact htext
          · show pyStrip el.text = el.text
            rw [htext, pyStrip_idem]
        | succ n =>
          have hi' : n < els.length := Nat.lt_of_succ_lt_succ hi
          have hp' : n < rest.length := Nat.lt_of_succ_lt_succ hp
          exact ih els hr n hi' hp'

/-- Witness for C10 on a one-cue file whose content has surrounding
whitespace and whose analysis call times out. -/
theorem enrich_subtitles_text_stripped_witness :
    ("你好" : String) = pyStrip " 你好 " ∧ pyStrip "你好" = "你好" :=
  enrich_subtitles_text_stripped (fun _ => "")
    [(⟨0, 1, " 你好 "⟩, .timeout)]
    [⟨0, 1, "你好", [], .jstr "", .jstr "", .jarr []⟩]
    rfl 0 (by decide) (by decide)

/-! ### Idempotence analysis of the trailing-comma repair (C7) -/

/-- Does the text begin (after whitespace) with a comma? -/
def nextNonWsIsComma (r : List Char) : Bool :=
  match r.dropWhile pyIsSpace with
  | b :: _ => b == commaC
  | [] => false

/-- A comma followed — possibly after whitespace — by another comma,
anywhere in the text.  One repair pass over such a text can bring the
second comma's bracket next to the first comma and create a new match. -/
def hasCommaWsComma : List Char → Bool
  | [] => false
  | c :: r => (c == commaC && nextNonWsIsComma r) || hasCommaWsComma r

theorem hasCommaWsComma_suffix {s l : List Char} (hsf : s <:+ l)
    (h : hasCommaWsComma l = false) : hasCommaWsComma s = false := by
  induction l with
  | nil =>
    rw [List.suffix_nil.mp hsf]
    rfl
  | cons c r ih =>
    simp only [hasCommaWsComma, Bool.or_eq_false_iff] at h
    rcases (List.suffix_cons_iff.mp hsf) with he | ht
    · rw [he]
      simp [hasCommaWsComma, h.1, h.2]
    · exact ih ht h.2

theorem ws_ne_comma (c : Char) (h : pyIsSpace c = true) : (c == commaC) = false := by
  simp only [pyIsSpace, Bool.or_eq_true, beq_iff_eq] at h
  rcases h with ((((h | h) | h) | h) | h) | h <;> subst h <;> decide

theorem closeBr_ne_comma (b : Char) (h : isCloseBr b = true) : (b == commaC) = false := by
  simp only [isCloseBr, Bool.or_eq_true, beq_iff_eq] at h
  rcases h with h | h <;> subst h <;> decide

/-- A character that is not a comma is copied through by the repair. -/
theorem rtcGo_cons_noncomma (c : Char) (r : List Char)
    (hc : (c == commaC) = false) : rtcGo [] (c :: r) = c :: rtcGo [] r := by
  simp [rtcGo, hc]

/-- A run with no comma is copied through by the repair. -/
theorem rtcGo_append_noncomma (w : List Char)
    (hw : ∀ c ∈ w, (c == commaC) = false) (l' : List Char) :
    rtcGo [] (w ++ l') = w ++ rtcGo [] l' := by
  induction w with
  | nil => simp
  | cons c wrest ih =>
    rw [List.cons_append, rtcGo_cons_noncomma c _ (hw c (List.mem_cons_self _ _))]
    rw [ih (fun d hd => hw d (List.mem_cons_of_mem _ hd))]
    rfl

/-- With a candidate pending, whitespace is buffered. -/
theorem rtcGo_buffer_ws (w : List Char) (hw : ∀ c ∈ w, pyIsSpace c = true) :
    ∀ (p : Char) (ps : List Char) (l' : List Char),
      rtcGo (p :: ps) (w ++ l') = rtcGo (w.reverse ++ (p :: ps)) l' := by
  induction w with
  | nil => intro p ps l'; simp
  | cons c wrest ih =>
    intro p ps l'
    have hc : pyIsSpace c = true := hw c (List.mem_cons_self _ _)
    rw [List.cons_append]
    show rtcGo (p :: ps) (c :: (wrest ++ l')) = _
    simp only [rtcGo, hc, if_true]
    rw [ih (fun d hd => hw d (List.mem_cons_of_mem _ hd)) c (p :: ps) l']
    congr 1
    simp

/-- Entering a candidate: a comma with an empty buffer. -/
theorem rtcGo_start_comma (r : List Char) :
    rtcGo [] (commaC :: r) = rtcGo [commaC] r := by
  simp [rtcGo]

/-- A comma followed only by whitespace to the end of the text: no match,
everything is kept. -/
theorem rtcGo_comma_end (r : List Char) (hd : r.dropWhile pyIsSpace = []) :
    rtcGo [] (commaC :: r) = commaC :: r := by
  have hr : r.takeWhile pyIsSpace = r := by
    have := List.takeWhile_append_dropWhile pyIsSpace r
    rw [hd, List.append_nil] at this
    exact this
  have hw : ∀ c ∈ r, pyIsSpace c = true := by
    intro c hc
    rw [← hr] at hc
    exact List.mem_takeWhile_imp hc
  rw [rtcGo_start_comma]
  have := rtcGo_buffer_ws r hw commaC [] []
  rw [List.append_nil] at this
  rw [this]
  show (r.reverse ++ [commaC]).reverse = _
  simp

/-- A comma whose next non-whitespace character is a closing bracket:
the comma and the whitespace are dropped, the bracket is kept, scanning
resumes after it. -/
theorem rtcGo_comma_hit (r : List Char) (b : Char) (r2 : List Char)
    (hd : r.dropWhile pyIsSpace = b :: r2) (hb : isCloseBr b = true) :
    rtcGo [] (commaC :: r) = b :: rtcGo [] r2 := by
  have hr : r.takeWhile pyIsSpace ++ (b :: r2) = r := by
    have := List.takeWhile_append_dropWhile pyIsSpace r
    rw [hd] at this
    exact this
  have hw : ∀ c ∈ r.takeWhile pyIsSpace, pyIsSpace c = true :=
    fun c hc => List.mem_takeWhile_imp hc
  have hbw : pyIsSpace b = false := dropWhile_head_false _ _ _ _ hd
  rw [rtcGo_start_comma, ← hr, rtcGo_buffer_ws _ hw commaC [] (b :: r2)]
  cases hwp : (r.takeWhile pyIsSpace).reverse ++ [commaC] with
  | nil => exact absurd hwp (by simp)
  | cons p0 ps =>
    show rtcGo (p0 :: ps) (b :: r2) = _
    simp [rtcGo, hbw, hb]

/-- A comma whose next non-whitespace character is neither a bracket nor
the end: no match, the comma stays and scanning continues after it. -/
theorem rtcGo_comma_miss (r : List Char) (b : Char) (r2 : List Char)
    (hd : r.dropWhile pyIsSpace = b :: r2) (hb : isCloseBr b = false) :
    rtcGo [] (commaC :: r) = commaC :: rtcGo [] r := by
  have hr : r.takeWhile pyIsSpace ++ (b :: r2) = r := by
    have := List.takeWhile_append_dropWhile pyIsSpace r
    rw [hd] at this
    exact this
  have hw : ∀ c ∈ r.takeWhile pyIsSpace, pyIsSpace c = true :=
    fun c hc => List.mem_takeWhile_imp hc
  have hwnc : ∀ c ∈ r.takeWhile pyIsSpace, (c == commaC) = false :=
    fun c hc => ws_ne_comma c (hw c hc)
  have hbw : pyIsSpace b = false := dropWhile_head_false _ _ _ _ hd
  rw [rtcGo_start_comma, ← hr, rtcGo_buffer_ws _ hw commaC [] (b :: r2)]
  rw [rtcGo_append_noncomma _ hwnc (b :: r2)]
  cases hwp : (r.takeWhile pyIsSpace).reverse ++ [commaC] with
  | nil => exact absurd hwp (by simp)
  | cons p0 ps =>
    show rtcGo (p0 :: ps) (b :: r2) = _
    cases hbc : b == commaC with
    | true =>
      have hbeq : b = commaC := eq_of_beq hbc
      subst hbeq
      simp only [rtcGo, hbw, Bool.false_eq_true, if_false, hb, hbc, if_true]
      rw [← hwp]
      simp
    | false =>
      simp only [rtcGo, hbw, Bool.false_eq_true, if_false, hb, hbc]
      rw [← hwp]
      simp

/-- The repair pass is idempotent on text with no comma followed (possibly
after whitespace) by another comma: one pass can then never create a new
`comma-whitespace-bracket` match. -/
theorem rtcL_idem (l : List Char) (h : hasCommaWsComma l = false) :
    rtcL (rtcL l) = rtcL l := by
  suffices hind : ∀ (n : Nat) (l : List Char), l.length ≤ n →
      hasCommaWsComma l = false → rtcGo [] (rtcGo [] l) = rtcGo [] l from
    hind l.length l le_rfl h
  intro n
  induction n with
  | zero =>
    intro l hl _
    rw [List.length_eq_zero.mp (Nat.le_zero.mp hl)]
    rfl
  | succ n ihn =>
    intro l hl hcwc
    match l with
    | [] => rfl
    | c :: r =>
      simp only [hasCommaWsComma, Bool.or_eq_false_iff, Bool.and_eq_false_iff] at hcwc
      obtain ⟨hhead, hr⟩ := hcwc
      have hlr : r.length ≤ n := by
        simp only [List.length_cons] at hl
        omega
      cases hc : c == commaC with
      | false =>
        rw [rtcGo_cons_noncomma c r hc, rtcGo_cons_noncomma c _ hc, ihn r hlr hr]
      | true =>
        have hceq : c = commaC := eq_of_beq hc
        subst hceq
        cases hd : r.dropWhile pyIsSpace with
        | nil =>
          rw [rtcGo_comma_end r hd, rtcGo_comma_end r hd]
        | cons b r2 =>
          have hbw : pyIsSpace b = false := dropWhile_head_false _ _ _ _ hd
          have hsuffix : b :: r2 <:+ r := hd ▸ List.dropWhile_suffix pyIsSpace
          have hr2 : hasCommaWsComma r2 = false :=
            hasCommaWsComma_suffix
              ((List.suffix_cons b r2).trans hsuffix)
              (hasCommaWsComma_suffix (List.suffix_cons _ _) (by
                simp only [hasCommaWsComma, Bool.or_eq_false_iff, Bool.and_eq_false_iff]
                exact ⟨hhead, hr⟩))
          have hl2 : r2.length ≤ n := by
            have h1 : (b :: r2).length ≤ r.length := by
              rw [← hd]
              exact (List.dropWhile_suffix pyIsSpace).sublist.length_le
            simp only [List.length_cons] at h1 hl
            omega
          cases hb : isCloseBr b with
          | true =>
            rw [rtcGo_comma_hit r b r2 hd hb]
            have hbnc : (b == commaC) = false := closeBr_ne_comma b hb
            rw [rtcGo_cons_noncomma b _ hbnc, ihn r2 hl2 hr2]
          | false =>
            rw [rtcGo_comma_miss r b r2 hd hb]
            -- the head of the repaired tail is still `b`, a non-match
            have hbnc : (b == commaC) = false := by
              rcases hhead with hcf | hnwf
              · exact absurd hcf (by simp)
              · unfold nextNonWsIsComma at hnwf
                rw [hd] at hnwf
                exact hnwf
            have hwnc : ∀ d ∈ r.takeWhile pyIsSpace, (d == commaC) = false :=
              fun d hdm => ws_ne_comma d (List.mem_takeWhile_imp hdm)
            have hsplit : r.takeWhile pyIsSpace ++ (b :: r2) = r := by
              have := List.takeWhile_append_dropWhile pyIsSpace r
              rw [hd] at this
              exact this
            have hrtail : rtcGo [] r = r.takeWhile pyIsSpace ++ (b :: rtcGo [] r2) := by
              conv_lhs => rw [← hsplit]
              rw [rtcGo_append_noncomma _ hwnc, rtcGo_cons_noncomma b r2 hbnc]
            have hdrop2 : (rtcGo [] r).dropWhile pyIsSpace = b :: rtcGo [] r2 := by
              rw [hrtail, List.dropWhile_append_of_pos
                (fun d hdm => List.mem_takeWhile_imp hdm)]
              exact dropWhile_cons_of_neg _ _ _ hbw
            rw [rtcGo_comma_miss (rtcGo [] r) b (rtcGo [] r2) hdrop2 hb]
            rw [ihn r hlr hr]

/-! ### What a decodable text can start with (C7) -/

theorem parseValue_nil (fuel : Nat) : parseValue fuel [] = none := by
  cases fuel <;> rfl

theorem parseValue_btick (fuel : Nat) (r : List Char) :
    parseValue fuel (btickC :: r) = none := by
  cases fuel <;> rfl

theorem parseValue_comma (fuel : Nat) (r : List Char) :
    parseValue fuel (commaC :: r) = none := by
  cases fuel <;> rfl

/-- A text that `json.loads` accepts starts — after JSON whitespace —
with some character that is neither a backtick nor a comma. -/
theorem jsonLoadsL_head (l : List Char) (h : (jsonLoadsL l).isSome = true) :
    ∃ b t, l.dropWhile jsonWsB = b :: t ∧
      (b == btickC) = false ∧ (b == commaC) = false := by
  unfold jsonLoadsL at h
  cases hd : l.dropWhile jsonWsB with
  | nil =>
    rw [hd, parseValue_nil] at h
    exact absurd h (by simp)
  | cons b t =>
    rw [hd] at h
    refine ⟨b, t, rfl, ?_, ?_⟩
    · cases hb : b == btickC with
      | false => rfl
      | true =>
        rw [eq_of_beq hb, parseValue_btick] at h
        exact absurd h (by simp)
    · cases hb : b == commaC with
      | false => rfl
      | true =>
        rw [eq_of_beq hb, parseValue_comma] at h
        exact absurd h (by simp)

theorem jsonWs_ne_btick (c : Char) (h : jsonWsB c = true) : (c == btickC) = false := by
  simp only [jsonWsB, Bool.or_eq_true, beq_iff_eq] at h
  rcases h with ((h | h) | h) | h <;> subst h <;> decide

theorem jsonWs_ne_comma (c : Char) (h : jsonWsB c = true) : (c == commaC) = false := by
  simp only [jsonWsB, Bool.or_eq_true, beq_iff_eq] at h
  rcases h with ((h | h) | h) | h <;> subst h <;> decide

/-- A text that begins with JSON whitespace followed by a non-backtick
character carries neither of the two fence markers, so `stripFence`
leaves it alone. -/
theorem stripFence_eq_self (l w : List Char) (b : Char) (t : List Char)
    (hw : ∀ c ∈ w, jsonWsB c = true) (hl : l = w ++ b :: t)
    (hb : (b == btickC) = false) : stripFence l = l := by
  have hfj : fenceJsonL = btickC :: "``json".data := rfl
  have hf4 : fence4L = btickC :: "```".data := rfl
  have hsw : ∀ p' : List Char, startsWithL l (btickC :: p') = false := by
    intro p'
    rw [hl]
    cases w with
    | nil => simp [startsWithL, hb]
    | cons c0 w' =>
      simp [startsWithL, jsonWs_ne_btick c0 (hw c0 (List.mem_cons_self _ _))]
  unfold stripFence
  rw [hfj, hf4, hsw, hsw]
  simp

/-- Claim C7 counterexample: the raw text `[",,]"]` decodes successfully
(a one-element array holding the string `,,]`), yet the text-level
sanitizer is not idempotent on it — the first repair pass rewrites the
material inside the string literal and brings a comma next to a bracket,
and the second pass then fires on the new match. -/
theorem sanitize_text_not_idempotent :
    (json_loads "[\",,]\"]").isSome = true ∧
    sanitize_text (sanitize_text "[\",,]\"]") ≠ sanitize_text "[\",,]\"]" := by
  refine ⟨rfl, ?_⟩
  decide

/-- Claim C7 amended: the sanitizer's text phase is idempotent on every
input that decodes successfully and contains no comma followed (possibly
after whitespace) by another comma — the configuration the single global
repair pass cannot rewrite into a fresh match. -/
theorem sanitize_text_idem_on_decodable (x : String)
    (h1 : (json_loads x).isSome = true)
    (h2 : hasCommaWsComma x.data = false) :
    sanitize_text (sanitize_text x) = sanitize_text x := by
  obtain ⟨b, t, hd, hbt, hbc⟩ := jsonLoadsL_head x.data h1
  have hx : x.data = x.data.takeWhile jsonWsB ++ b :: t := by
    conv_lhs => rw [← List.takeWhile_append_dropWhile jsonWsB x.data]
    rw [hd]
  have hwws : ∀ c ∈ x.data.takeWhile jsonWsB, jsonWsB c = true :=
    fun c hc => List.mem_takeWhile_imp hc
  have hsf1 : stripFence x.data = x.data :=
    stripFence_eq_self _ _ b t hwws hx hbt
  have hst : sanitize_text x = String.mk (rtcL x.data) := by
    unfold sanitize_text
    rw [hsf1]
  have hrtc : rtcL x.data = x.data.takeWhile jsonWsB ++ b :: rtcGo [] t := by
    conv_lhs => rw [hx]
    unfold rtcL
    rw [rtcGo_append_noncomma _ (fun c hc => jsonWs_ne_comma c (hwws c hc)),
      rtcGo_cons_noncomma b t hbc]
  have hsf2 : stripFence (rtcL x.data) = rtcL x.data :=
    stripFence_eq_self _ _ b (rtcGo [] t) hwws hrtc hbt
  calc sanitize_text (sanitize_text x)
      = String.mk (rtcL (stripFence (rtcL x.data))) := by rw [hst]; rfl
    _ = String.mk (rtcL (rtcL x.data)) := by rw [hsf2]
    _ = String.mk (rtcL x.data) := by rw [rtcL_idem x.data h2]
    _ = sanitize_text x := hst.symm

/-- Witness for the amended C7 on a clean three-field response. -/
theorem sanitize_text_idem_on_decodable_witness :
    (json_loads "\x7b\"translation\": \"a\", \"words\": [], \"explanation\": \"b\"\x7d").isSome = true ∧
    hasCommaWsComma "\x7b\"translation\": \"a\", \"words\": [], \"explanation\": \"b\"\x7d".data = false ∧
    sanitize_text (sanitize_text "\x7b\"translation\": \"a\", \"words\": [], \"explanation\": \"b\"\x7d") =
      sanitize_text "\x7b\"translation\": \"a\", \"words\": [], \"explanation\": \"b\"\x7d" :=
  ⟨rfl, by decide,
    sanitize_text_idem_on_decodable _ rfl (by decide)⟩
